import Mathlib

/-!
Verification of the mr-optics core: lens collection state, optics math,
axial layout and the ray-trace engine, embedded shallowly over ℚ.
All definitions are translated from the TypeScript source
(`lenses.ts`, `Config.tsx`, `Renderer.tsx`, latest revisions).
-/

namespace MrOptics

/-- The two lens variants of `lenses.ts`. -/
inductive LensType where
  | biconvex
  | biconcave
deriving DecidableEq, Repr

/-- One optical element, as in `lenses.ts` (latest revision: `r` may be
absent, i.e. `null`/`undefined`). `power` is always set by the final
`Config.tsx` (creation sets `power = 6`). -/
structure Lens where
  id : ℕ
  power : ℚ
  index : ℚ
  type : LensType
  r : Option ℚ
deriving DecidableEq, Repr

/-- `calcRadius` from `lenses.ts` (latest revision): returns `null`
(here `none`) when `power == 0`, otherwise `2 * (index - 1) / power`
in both type branches, kept separate as in the source. -/
def calcRadius (power : ℚ) (index : ℚ) (type : LensType) : Option ℚ :=
  if power = 0 then
    none
  else
    match type with
    | .biconvex => some (2 * (index - 1) / power)
    | .biconcave => some (2 * (index - 1) / power)

/-- Whole-app state: the `nextId` counter together with the two signals
`lenses` and `distances` of `Config.tsx`. -/
structure OpticsState where
  nextId : ℕ
  lenses : List Lens
  distances : List ℚ
deriving DecidableEq, Repr

/-- The lens literal `addLens` appends: default type biconvex, index
`1.5`, power `6` and the radius computed from those defaults. -/
def defaultLens (id : ℕ) : Lens :=
  { id := id, type := .biconvex, index := 1.5, power := 6,
    r := calcRadius 6 1.5 .biconvex }

/-- `addLens` from `Config.tsx`: reads the length first, appends a fresh
default lens while under the 3-lens cap, and appends a default distance
whenever the previously read length was positive. -/
def addLens (s : OpticsState) : OpticsState :=
  let length := s.lenses.length
  let s1 : OpticsState :=
    if length < 3 then
      { s with
        nextId := s.nextId + 1,
        lenses := s.lenses ++ [defaultLens s.nextId] }
    else s
  if 0 < length then { s1 with distances := s1.distances ++ [1.0] } else s1

/-- JavaScript `Array.prototype.findIndex`: index of the first element
satisfying `p`, and `-1` when there is none. -/
def findIndexJs (p : Lens → Bool) : List Lens → ℤ
  | [] => -1
  | l :: rest =>
    if p l then 0
    else
      let r := findIndexJs p rest
      if r < 0 then -1 else r + 1

/-- JavaScript `distances.filter((_, i) => i !== k)`, with the running
element position starting at `i`. -/
def filterNeIdxFrom (k : ℤ) : List ℚ → ℤ → List ℚ
  | [], _ => []
  | x :: rest, i =>
    if i = k then filterNeIdxFrom k rest (i + 1)
    else x :: filterNeIdxFrom k rest (i + 1)

/-- Keep exactly the entries whose position differs from `k`. -/
def filterIdxNe (xs : List ℚ) (k : ℤ) : List ℚ :=
  filterNeIdxFrom k xs 0

/-- `deleteLens` from `Config.tsx`: remove every lens whose id matches,
then repair `distances` — drop the entry at the deleted position when a
lens followed the deleted one, otherwise drop the last entry (if any). -/
def deleteLens (s : OpticsState) (id : ℕ) : OpticsState :=
  let deletedIndex := findIndexJs (fun l => l.id == id) s.lenses
  let newLenses := s.lenses.filter (fun l => l.id != id)
  let newDistances :=
    if deletedIndex < (newLenses.length : ℤ) then
      filterIdxNe s.distances deletedIndex
    else if 0 < s.distances.length then
      s.distances.dropLast
    else s.distances
  { s with lenses := newLenses, distances := newDistances }

/-- `updateLensPower` from `Config.tsx`: on the matching lens, and only
for `newPower ≠ 0` strictly above `-7.8`, set the power and recompute
`r`; otherwise keep the lens untouched. -/
def updateLensPower (lenses : List Lens) (id : ℕ) (newPower : ℚ) :
    List Lens :=
  lenses.map fun l =>
    if l.id = id ∧ newPower ≠ 0 ∧ -7.8 < newPower then
      { l with power := newPower, r := calcRadius newPower l.index l.type }
    else l

/-- `updateLensIndex` from `Config.tsx`: guarded by `newIndex ≥ 1.5`;
sets the index on the matching lens and recomputes `r` from its current
power and type. -/
def updateLensIndex (lenses : List Lens) (id : ℕ) (newIndex : ℚ) :
    List Lens :=
  if 1.5 ≤ newIndex then
    lenses.map fun l =>
      if l.id = id then
        { l with index := newIndex, r := calcRadius l.power newIndex l.type }
      else l
  else lenses

/-- JavaScript `distances.map((d, i) => i === index ? newDistance : d)`
with the running position starting at `i`. -/
def mapSetIdxFrom (k : ℤ) (v : ℚ) : List ℚ → ℤ → List ℚ
  | [], _ => []
  | x :: rest, i =>
    (if i = k then v else x) :: mapSetIdxFrom k v rest (i + 1)

/-- `updateDistance` from `Config.tsx`: guarded by `newDistance ≥ 0.2`
(the `isNaN` test has no counterpart over ℚ); replaces the entry at the
given position, leaving all others as they are. -/
def updateDistance (distances : List ℚ) (index : ℤ) (newDistance : ℚ) :
    List ℚ :=
  if 0.2 ≤ newDistance then
    mapSetIdxFrom index newDistance distances 0
  else distances

/-- JavaScript `distances.value[i] || 1.0`: a missing entry, and also a
present `0` (falsy), yields the default `1.0`. -/
def jsOrOne (x : Option ℚ) : ℚ :=
  match x with
  | some d => if d = 0 then 1 else d
  | none => 1

/-- `calculateLensX` from `Renderer.tsx` (latest revision): index `0`
sits at the fixed start `200`; otherwise a fold adds
`(distances[i] || 1.0) * 200` for each `i < index` onto the start. -/
def calculateLensX (distances : List ℚ) (index : ℕ) : ℚ :=
  if index = 0 then 200
  else
    (List.range index).foldl
      (fun totalDistance i => totalDistance + jsOrOne distances[i]? * 200)
      200

/-- The recursion of `simpleRayTrace`'s `forEach` body: walks the lens
list with the running lens position `i`, current `x`, `y` and slope, and
returns the recorded crossing points together with the final `x`, `y`
and slope. -/
def rayTraceAux (distances : List ℚ) (centerY : ℚ) :
    List Lens → ℕ → ℚ → ℚ → ℚ → List (ℚ × ℚ) × ℚ × ℚ × ℚ
  | [], _, currentX, currentY, currentSlope =>
    ([], currentX, currentY, currentSlope)
  | lens :: rest, i, currentX, currentY, currentSlope =>
    let lensX := calculateLensX distances i
    let deltaX := lensX - currentX
    let y2 := currentY + currentSlope * deltaX
    let h := y2 - centerY
    let deltaSlope := -(h / 200) * lens.power
    let slope2 := currentSlope + deltaSlope * 0.1
    let r := rayTraceAux distances centerY rest (i + 1) lensX y2 slope2
    ((lensX, y2) :: r.1, r.2)

/-- `simpleRayTrace` from `Renderer.tsx` (latest revision), with the SVG
path rendered as its list of points: start at `(0, startY)` with slope
`0`, bend at each lens, then extend to
`max(width, lastX + 100)` at the final slope. -/
def simpleRayTrace (distances : List ℚ) (width : ℚ) (centerY : ℚ)
    (startY : ℚ) (lenses : List Lens) : List (ℚ × ℚ) :=
  let r := rayTraceAux distances centerY lenses 0 0 startY 0
  let currentX := r.2.1
  let currentYPos := r.2.2.1
  let currentSlope := r.2.2.2
  let endX := max width (currentX + 100)
  let finalY := currentYPos + currentSlope * (endX - currentX)
  ((0, startY) :: r.1) ++ [(endX, finalY)]

/-- State carried across the ray-trace fold of the spec: current
horizontal and vertical position, current slope, the points recorded so
far, and the sequence position of the next lens. -/
structure TraceState where
  x : ℚ
  y : ℚ
  slope : ℚ
  pts : List (ℚ × ℚ)
  k : ℕ
deriving DecidableEq

/-- Modelled from the spec wording of the Ray Trace Engine, as the
refinement target for `simpleRayTrace`: propagate to the lens position
at the current slope, record the crossing point, and change the slope by
`-((y - centerAxisY) / scale) * power` damped by `0.1`. -/
def traceStep (distances : List ℚ) (centerY : ℚ) (st : TraceState)
    (lens : Lens) : TraceState :=
  let lensX := calculateLensX distances st.k
  let y := st.y + st.slope * (lensX - st.x)
  let deltaSlope := -((y - centerY) / 200) * lens.power
  { x := lensX, y := y, slope := st.slope + deltaSlope * 0.1,
    pts := st.pts ++ [(lensX, y)], k := st.k + 1 }

/-- Modelled from the spec wording: the fold starting at `x = 0`,
`y = startHeight`, slope `0`, followed by one last point extending at
the final slope to `max(width, 100 units past the last lens)`. -/
def traceSpec (distances : List ℚ) (width centerY startHeight : ℚ)
    (lenses : List Lens) : List (ℚ × ℚ) :=
  let st := lenses.foldl (traceStep distances centerY)
    { x := 0, y := startHeight, slope := 0,
      pts := [(0, startHeight)], k := 0 }
  let endX := max width (st.x + 100)
  st.pts ++ [(endX, st.y + st.slope * (endX - st.x))]

/-- Concrete three-lens state: `addLens` applied three times to the
empty app state. Yields lenses with ids 1, 2, 3 and distances `[1, 1]`. -/
def sFull : OpticsState := addLens (addLens (addLens ⟨1, [], []⟩))

/-- The states reachable from the empty app state through the public
operations of `Config.tsx`, each with arbitrary arguments. -/
inductive Reachable : OpticsState → Prop where
  | init : Reachable ⟨1, [], []⟩
  | add {s} : Reachable s → Reachable (addLens s)
  | remove {s} (id : ℕ) : Reachable s → Reachable (deleteLens s id)
  | power {s} (id : ℕ) (p : ℚ) : Reachable s →
      Reachable { s with lenses := updateLensPower s.lenses id p }
  | indexUpd {s} (id : ℕ) (n : ℚ) : Reachable s →
      Reachable { s with lenses := updateLensIndex s.lenses id n }
  | dist {s} (i : ℤ) (d : ℚ) : Reachable s →
      Reachable { s with distances := updateDistance s.distances i d }

/-- The documented relation between the two sequences:
`len(distances) == max(len(lenses) - 1, 0)` (ℕ subtraction truncates,
so the `max` is written out as in the spec). -/
def distInv (s : OpticsState) : Prop :=
  s.distances.length = max (s.lenses.length - 1) 0

instance (s : OpticsState) : Decidable (distInv s) := by
  unfold distInv; infer_instance

/-- C4: for every power, index and lens type, a nonzero power yields
`2 * (index - 1) / power`, and power `0` yields no radius at all. -/
theorem calcRadius_spec (power index : ℚ) (t : LensType) :
    (power ≠ 0 → calcRadius power index t = some (2 * (index - 1) / power)) ∧
    (power = 0 → calcRadius power index t = none) := by
  constructor
  · intro h
    unfold calcRadius
    rw [if_neg h]
    cases t <;> rfl
  · intro h
    unfold calcRadius
    rw [if_pos h]

theorem calcRadius_spec_witness :
    (6 : ℚ) ≠ 0 ∧ calcRadius 6 1.5 .biconvex = some (2 * ((1.5 : ℚ) - 1) / 6) :=
  ⟨by norm_num, (calcRadius_spec 6 1.5 .biconvex).1 (by norm_num)⟩

/-- C9: for every nonzero power and every index the biconvex and the
biconcave branch of `calcRadius` compute the same radius. -/
theorem calcRadius_type_indep (power index : ℚ) (h : power ≠ 0) :
    calcRadius power index .biconvex = calcRadius power index .biconcave := by
  unfold calcRadius
  rw [if_neg h]

theorem calcRadius_type_indep_witness :
    calcRadius 6 1.5 .biconvex = calcRadius 6 1.5 .biconcave :=
  calcRadius_type_indep 6 1.5 (by norm_num)

/-- C5: `updateLensPower` is a complete no-op when the new power is `0`
or not above `-7.8`; otherwise it rewrites exactly the matching lens,
setting its power and recomputing `r` from its current index and type. -/
theorem updateLensPower_spec (lenses : List Lens) (id : ℕ) (newPower : ℚ) :
    (newPower = 0 ∨ newPower ≤ -7.8 →
      updateLensPower lenses id newPower = lenses) ∧
    (newPower ≠ 0 → -7.8 < newPower →
      updateLensPower lenses id newPower = lenses.map fun l =>
        if l.id = id then
          { l with power := newPower,
                   r := calcRadius newPower l.index l.type }
        else l) := by
  constructor
  · intro h
    have hno : ∀ l : Lens, ¬(l.id = id ∧ newPower ≠ 0 ∧ -7.8 < newPower) := by
      intro l hc
      rcases h with h | h
      · exact hc.2.1 h
      · exact absurd hc.2.2 (not_lt.mpr h)
    calc updateLensPower lenses id newPower
        = lenses.map (fun l => l) :=
          List.map_congr_left fun l _ => if_neg (hno l)
      _ = lenses := List.map_id' lenses
  · intro h0 h1
    unfold updateLensPower
    refine List.map_congr_left fun l _ => ?_
    by_cases hid : l.id = id
    · rw [if_pos ⟨hid, h0, h1⟩, if_pos hid]
    · rw [if_neg fun hc => hid hc.1, if_neg hid]

theorem updateLensPower_spec_witness :
    updateLensPower [defaultLens 1] 1 0 = [defaultLens 1] ∧
    updateLensPower [defaultLens 1] 1 4 = [{ defaultLens 1 with
      power := 4, r := calcRadius 4 (defaultLens 1).index (defaultLens 1).type }] := by
  constructor
  · exact (updateLensPower_spec [defaultLens 1] 1 0).1 (Or.inl rfl)
  · have h := (updateLensPower_spec [defaultLens 1] 1 4).2
      (by norm_num) (by norm_num)
    rw [h]
    rfl

/-- C1 (code bug): calling `addLens` four times from the empty state
yields three lenses but THREE distance entries — the fourth call is not
a no-op, because the distance append is guarded only by the previously
read length being positive, not by the 3-lens cap. -/
theorem addLens_fourth_call_adds_distance :
    (addLens sFull).lenses.length = 3 ∧
    (addLens sFull).distances.length = 3 := by
  decide

/-- C2 (code bug): the documented invariant
`len(distances) == max(len(lenses) - 1, 0)` holds for the full
three-lens state but is broken by one further `addLens` call, which
appends a distance entry while leaving the lens list capped at 3. -/
theorem addLens_breaks_distInv :
    distInv sFull ∧ ¬ distInv (addLens sFull) := by
  decide

theorem mapSetIdxFrom_length (k : ℤ) (v : ℚ) :
    ∀ (xs : List ℚ) (i : ℤ), (mapSetIdxFrom k v xs i).length = xs.length
  | [], _ => rfl
  | _ :: rest, i => by
    simp [mapSetIdxFrom, mapSetIdxFrom_length k v rest (i + 1)]

theorem mapSetIdxFrom_out_of_range (k : ℤ) (v : ℚ) :
    ∀ (xs : List ℚ) (i : ℤ), (k < i ∨ i + xs.length ≤ k) →
      mapSetIdxFrom k v xs i = xs
  | [], _, _ => rfl
  | x :: rest, i, h => by
    have hne : i ≠ k := by
      rcases h with h | h
      · omega
      · simp only [List.length_cons] at h
        omega
    have hrec : k < i + 1 ∨ (i + 1) + rest.length ≤ k := by
      rcases h with h | h
      · exact Or.inl (by omega)
      · simp only [List.length_cons] at h
        exact Or.inr (by push_cast at h ⊢; omega)
    simp [mapSetIdxFrom, if_neg hne,
      mapSetIdxFrom_out_of_range k v rest (i + 1) hrec]

theorem mapSetIdxFrom_getElem_ne (k : ℤ) (v : ℚ) :
    ∀ (xs : List ℚ) (i : ℤ) (j : ℕ), i + j ≠ k →
      (mapSetIdxFrom k v xs i)[j]? = xs[j]?
  | [], _, _, _ => rfl
  | x :: rest, i, 0, h => by
    have : i ≠ k := by push_cast at h; omega
    simp [mapSetIdxFrom, if_neg this]
  | x :: rest, i, j + 1, h => by
    have : (i + 1) + (j : ℤ) ≠ k := by push_cast at h ⊢; omega
    simp [mapSetIdxFrom,
      mapSetIdxFrom_getElem_ne k v rest (i + 1) j this]

theorem mapSetIdxFrom_getElem_eq (k : ℤ) (v : ℚ) :
    ∀ (xs : List ℚ) (i : ℤ) (j : ℕ), i + j = k →
      (mapSetIdxFrom k v xs i)[j]? = xs[j]?.map fun _ => v
  | [], _, _, _ => rfl
  | x :: rest, i, 0, h => by
    have : i = k := by push_cast at h; omega
    simp [mapSetIdxFrom, if_pos this]
  | x :: rest, i, j + 1, h => by
    have : (i + 1) + (j : ℤ) = k := by push_cast at h ⊢; omega
    simp [mapSetIdxFrom,
      mapSetIdxFrom_getElem_eq k v rest (i + 1) j this]

/-- C10: `updateDistance` never changes the length of the distances
list; with an index outside `[0, len)` it leaves the list entirely
unchanged regardless of the new value; and when it applies it touches
only the entry at the given index, every other entry being unchanged. -/
theorem updateDistance_spec (distances : List ℚ) (index : ℤ)
    (newDistance : ℚ) :
    (updateDistance distances index newDistance).length =
      distances.length ∧
    (index < 0 ∨ (distances.length : ℤ) ≤ index →
      updateDistance distances index newDistance = distances) ∧
    (∀ i : ℕ, (i : ℤ) ≠ index →
      (updateDistance distances index newDistance)[i]? = distances[i]?) ∧
    (0.2 ≤ newDistance → ∀ i : ℕ, (i : ℤ) = index →
      (updateDistance distances index newDistance)[i]? =
        distances[i]?.map fun _ => newDistance) := by
  refine ⟨?_, ?_, ?_, ?_⟩
  · unfold updateDistance
    split
    · exact mapSetIdxFrom_length index newDistance distances 0
    · rfl
  · intro h
    unfold updateDistance
    split
    · refine mapSetIdxFrom_out_of_range index newDistance distances 0 ?_
      rcases h with h | h
      · exact Or.inl h
      · exact Or.inr (by omega)
    · rfl
  · intro i hi
    unfold updateDistance
    split
    · exact mapSetIdxFrom_getElem_ne index newDistance distances 0 i
        (by omega)
    · rfl
  · intro hd i hi
    unfold updateDistance
    rw [if_pos hd]
    exact mapSetIdxFrom_getElem_eq index newDistance distances 0 i (by omega)

theorem updateDistance_spec_witness :
    (updateDistance [1, 2] 5 7).length = 2 ∧
    updateDistance [1, 2] 5 7 = [1, 2] ∧
    (updateDistance [1, 2] 0 5)[1]? = some 2 ∧
    (updateDistance [1, 2] 0 5)[0]? = some 5 := by
  have h5 := updateDistance_spec [1, 2] 5 7
  have h0 := updateDistance_spec [1, 2] 0 5
  refine ⟨h5.1.trans (by decide), h5.2.1 (by norm_num), ?_, ?_⟩
  · rw [h0.2.2.1 1 (by norm_num)]
    rfl
  · rw [h0.2.2.2 (by norm_num) 0 (by norm_num)]
    rfl

theorem foldl_add_range (f : ℕ → ℚ) :
    ∀ (k : ℕ) (a : ℚ),
      (List.range k).foldl (fun t i => t + f i) a =
        a + ((List.range k).map f).sum
  | 0, a => by simp
  | k + 1, a => by
    rw [List.range_succ]
    simp only [List.foldl_append, List.map_append, List.sum_append,
      List.foldl_cons, List.foldl_nil, List.map_cons, List.map_nil,
      List.sum_cons, List.sum_nil, foldl_add_range f k a]
    ring

/-- C7: `calculateLensX 0` is the fixed start `200` whatever the
distances are, and for `k > 0` it is `200` plus the sum over `i < k` of
`distances[i] * 200`, a missing entry contributing the default `1`;
stated for distance lists of positive entries, as the data model
prescribes. -/
theorem calculateLensX_spec (distances : List ℚ)
    (hpos : ∀ d ∈ distances, 0 < d) :
    calculateLensX distances 0 = 200 ∧
    ∀ k : ℕ, 0 < k →
      calculateLensX distances k =
        200 + ((List.range k).map fun i =>
          (match distances[i]? with
           | some d => d
           | none => 1) * 200).sum := by
  constructor
  · rfl
  · intro k hk
    unfold calculateLensX
    rw [if_neg (Nat.pos_iff_ne_zero.mp hk),
      foldl_add_range (fun i => jsOrOne distances[i]? * 200) k 200]
    congr 1
    refine congrArg List.sum (List.map_congr_left fun i _ => ?_)
    unfold jsOrOne
    cases hg : distances[i]? with
    | none => rfl
    | some d =>
      have hd : 0 < d := hpos d (List.getElem?_mem hg)
      show (if d = 0 then 1 else d) * 200 = d * 200
      rw [if_neg (ne_of_gt hd)]

theorem calculateLensX_spec_witness :
    calculateLensX [1, 1.5] 0 = 200 ∧ calculateLensX [1, 1.5] 2 = 700 := by
  have h := calculateLensX_spec [1, 1.5] (by norm_num)
  exact ⟨h.1, (h.2 2 (by norm_num)).trans (by norm_num [List.range_succ])⟩

theorem addLens_lenses (s : OpticsState) :
    (addLens s).lenses =
      if s.lenses.length < 3 then s.lenses ++ [defaultLens s.nextId]
      else s.lenses := by
  unfold addLens
  dsimp only
  split <;> split <;> rfl

theorem deleteLens_lenses (s : OpticsState) (id : ℕ) :
    (deleteLens s id).lenses = s.lenses.filter (fun l => l.id != id) := rfl

/-- C6: `updateLensIndex` is a no-op whenever the new index is below
`1.5`, and consequently every lens of every reachable state has index
at least `1.5` (lenses are created with index exactly `1.5`). -/
theorem updateLensIndex_min_invariant :
    (∀ (lenses : List Lens) (id : ℕ) (newIndex : ℚ), newIndex < 1.5 →
      updateLensIndex lenses id newIndex = lenses) ∧
    (∀ s, Reachable s → ∀ l ∈ s.lenses, 1.5 ≤ l.index) := by
  have hstep : ∀ (lenses : List Lens) (id : ℕ) (newIndex : ℚ),
      newIndex < 1.5 → updateLensIndex lenses id newIndex = lenses := by
    intro lenses id newIndex h
    unfold updateLensIndex
    rw [if_neg (not_le.mpr h)]
  refine ⟨hstep, ?_⟩
  intro s hs
  induction hs with
  | init =>
    intro l hl
    simp at hl
  | add hr ih =>
    intro l hl
    rw [addLens_lenses] at hl
    split at hl
    · rcases List.mem_append.mp hl with h | h
      · exact ih l h
      · rw [List.mem_singleton.mp h]
        norm_num [defaultLens]
    · exact ih l hl
  | remove id hr ih =>
    intro l hl
    rw [deleteLens_lenses] at hl
    exact ih l (List.mem_of_mem_filter hl)
  | power id p hr ih =>
    intro l hl
    have hl' : l ∈ updateLensPower _ id p := hl
    unfold updateLensPower at hl'
    rcases List.mem_map.mp hl' with ⟨a, ha, rfl⟩
    by_cases hc : a.id = id ∧ p ≠ 0 ∧ -7.8 < p
    · rw [if_pos hc]
      exact ih a ha
    · rw [if_neg hc]
      exact ih a ha
  | indexUpd id n hr ih =>
    intro l hl
    have hl' : l ∈ updateLensIndex _ id n := hl
    by_cases hn : (1.5 : ℚ) ≤ n
    · unfold updateLensIndex at hl'
      rw [if_pos hn] at hl'
      rcases List.mem_map.mp hl' with ⟨a, ha, rfl⟩
      by_cases hc : a.id = id
      · rw [if_pos hc]
        exact hn
      · rw [if_neg hc]
        exact ih a ha
    · rw [hstep _ id n (not_le.mp hn)] at hl'
      exact ih l hl'
  | dist i d hr ih =>
    intro l hl
    exact ih l hl

theorem updateLensIndex_min_invariant_witness :
    updateLensIndex [defaultLens 1] 1 1.4 = [defaultLens 1] ∧
    (1.5 : ℚ) ≤ (defaultLens 1).index :=
  ⟨updateLensIndex_min_invariant.1 [defaultLens 1] 1 1.4 (by norm_num),
   updateLensIndex_min_invariant.2 (addLens ⟨1, [], []⟩)
     (Reachable.add Reachable.init) (defaultLens 1) (List.Mem.head _)⟩

theorem deleteLens_def (s : OpticsState) (id : ℕ) :
    deleteLens s id =
      { s with
        lenses := s.lenses.filter (fun l => l.id != id),
        distances :=
          if findIndexJs (fun l => l.id == id) s.lenses <
              ((s.lenses.filter (fun l => l.id != id)).length : ℤ) then
            filterIdxNe s.distances
              (findIndexJs (fun l => l.id == id) s.lenses)
          else if 0 < s.distances.length then s.distances.dropLast
          else s.distances } := rfl

theorem findIndexJs_eq_neg_one (p : Lens → Bool) :
    ∀ lenses : List Lens, (∀ l ∈ lenses, p l = false) →
      findIndexJs p lenses = -1
  | [], _ => rfl
  | l :: rest, h => by
    have h0 : p l = false := h l (List.mem_cons_self l rest)
    have h1 : findIndexJs p rest = -1 :=
      findIndexJs_eq_neg_one p rest fun x hx => h x (List.mem_cons_of_mem l hx)
    simp [findIndexJs, h0, h1]

theorem findIndexJs_lt_length (p : Lens → Bool) :
    ∀ (lenses : List Lens) (k : ℕ),
      findIndexJs p lenses = (k : ℤ) → k < lenses.length
  | [], k, h => by
    simp [findIndexJs] at h
  | l :: rest, k, h => by
    unfold findIndexJs at h
    by_cases hp : p l
    · rw [if_pos hp] at h
      have : k = 0 := by omega
      simp [this]
    · rw [if_neg hp] at h
      dsimp only at h
      by_cases hr : findIndexJs p rest < 0
      · rw [if_pos hr] at h
        omega
      · rw [if_neg hr] at h
        obtain ⟨m, hm⟩ := Int.eq_ofNat_of_zero_le (not_lt.mp hr)
        rw [hm] at h
        have hk : k = m + 1 := by omega
        have hmlt := findIndexJs_lt_length p rest m hm
        simp only [List.length_cons]
        omega

theorem findIndexJs_found (p : Lens → Bool) :
    ∀ lenses : List Lens, (∃ l ∈ lenses, p l = true) →
      ∃ k : ℕ, findIndexJs p lenses = (k : ℤ)
  | [], h => absurd h (by simp)
  | l :: rest, h => by
    by_cases hp : p l
    · exact ⟨0, by simp [findIndexJs, hp]⟩
    · have hrest : ∃ x ∈ rest, p x = true := by
        rcases h with ⟨x, hx, hpx⟩
        rcases List.mem_cons.mp hx with rfl | hx'
        · exact absurd hpx (by simpa using hp)
        · exact ⟨x, hx', hpx⟩
      obtain ⟨m, hm⟩ := findIndexJs_found p rest hrest
      refine ⟨m + 1, ?_⟩
      unfold findIndexJs
      rw [if_neg hp]
      dsimp only
      rw [hm, if_neg (by omega)]
      push_cast
      ring

theorem filter_eq_eraseIdx_of_findIndexJs (id : ℕ) :
    ∀ (lenses : List Lens) (k : ℕ),
      (lenses.map Lens.id).Nodup →
      findIndexJs (fun l => l.id == id) lenses = (k : ℤ) →
      lenses.filter (fun l => l.id != id) = lenses.eraseIdx k
  | [], k, _, h => by
    simp [findIndexJs] at h
  | l :: rest, k, hnd, h => by
    rw [List.map_cons, List.nodup_cons] at hnd
    by_cases hp : l.id == id
    · unfold findIndexJs at h
      rw [if_pos hp] at h
      have hk : k = 0 := by omega
      subst hk
      have hid : l.id = id := by simpa using hp
      have hrest : rest.filter (fun x => x.id != id) = rest := by
        rw [List.filter_eq_self]
        intro a ha
        have hane : a.id ≠ id := by
          intro hc
          exact hnd.1 (List.mem_map.mpr ⟨a, ha, by rw [hc, hid]⟩)
        simpa using hane
      rw [List.eraseIdx_cons_zero,
        List.filter_cons_of_neg (by simpa using hid), hrest]
    · unfold findIndexJs at h
      rw [if_neg hp] at h
      dsimp only at h
      by_cases hr : findIndexJs (fun l => l.id == id) rest < 0
      · rw [if_pos hr] at h
        exfalso
        omega
      · rw [if_neg hr] at h
        obtain ⟨m, hm⟩ := Int.eq_ofNat_of_zero_le (not_lt.mp hr)
        rw [hm] at h
        have hk : k = m + 1 := by omega
        subst hk
        rw [List.filter_cons_of_pos (by simpa using hp),
          List.eraseIdx_cons_succ,
          filter_eq_eraseIdx_of_findIndexJs id rest m hnd.2 hm]

theorem filterNeIdxFrom_of_lt (k : ℤ) :
    ∀ (xs : List ℚ) (i : ℤ), k < i → filterNeIdxFrom k xs i = xs
  | [], _, _ => rfl
  | x :: rest, i, h => by
    unfold filterNeIdxFrom
    rw [if_neg (by omega), filterNeIdxFrom_of_lt k rest (i + 1) (by omega)]

theorem filterNeIdxFrom_eraseIdx (k : ℤ) :
    ∀ (xs : List ℚ) (i : ℤ) (m : ℕ), i + m = k →
      filterNeIdxFrom k xs i = xs.eraseIdx m
  | [], _, _, _ => by simp [filterNeIdxFrom, List.eraseIdx_nil]
  | x :: rest, i, 0, h => by
    have hik : i = k := by push_cast at h; omega
    unfold filterNeIdxFrom
    rw [if_pos hik, List.eraseIdx_cons_zero,
      filterNeIdxFrom_of_lt k rest (i + 1) (by omega)]
  | x :: rest, i, m + 1, h => by
    have hne : i ≠ k := by push_cast at h; omega
    have hrec : (i + 1) + (m : ℤ) = k := by push_cast at h ⊢; omega
    unfold filterNeIdxFrom
    rw [if_neg hne, List.eraseIdx_cons_succ,
      filterNeIdxFrom_eraseIdx k rest (i + 1) m hrec]

/-- C3: `deleteLens` with an id no lens carries leaves the whole state
unchanged; otherwise the matching id is found at some sequence index
`k`, the lens at `k` is removed, and the distance entry at `k` is
removed when `k` was not the last lens index, while the last distance
entry is removed (`dropLast`, a no-op on an empty list) when `k` was the
last index. Stated for duplicate-free ids, as the data model
guarantees. -/
theorem deleteLens_spec (s : OpticsState)
    (hnd : (s.lenses.map Lens.id).Nodup) (id : ℕ) :
    ((∀ l ∈ s.lenses, l.id ≠ id) → deleteLens s id = s) ∧
    ((∃ l ∈ s.lenses, l.id = id) →
      ∃ k : ℕ, findIndexJs (fun l => l.id == id) s.lenses = (k : ℤ)) ∧
    (∀ k : ℕ, findIndexJs (fun l => l.id == id) s.lenses = (k : ℤ) →
      (deleteLens s id).lenses = s.lenses.eraseIdx k ∧
      (k + 1 < s.lenses.length →
        (deleteLens s id).distances = s.distances.eraseIdx k) ∧
      (k + 1 = s.lenses.length →
        (deleteLens s id).distances = s.distances.dropLast)) := by
  refine ⟨?_, ?_, ?_⟩
  · intro h
    have hfilter : s.lenses.filter (fun l => l.id != id) = s.lenses :=
      List.filter_eq_self.mpr fun a ha => by simpa using h a ha
    have hfind : findIndexJs (fun l => l.id == id) s.lenses = -1 :=
      findIndexJs_eq_neg_one _ _ fun a ha => by simpa using h a ha
    rw [deleteLens_def, hfilter, hfind, if_pos (by omega),
      show filterIdxNe s.distances (-1) = s.distances from
        filterNeIdxFrom_of_lt (-1) s.distances 0 (by omega)]
  · intro h
    refine findIndexJs_found _ _ ?_
    rcases h with ⟨l, hl, hid⟩
    exact ⟨l, hl, by simpa using hid⟩
  · intro k hk
    have hklen : k < s.lenses.length := findIndexJs_lt_length _ _ k hk
    have hfe : s.lenses.filter (fun l => l.id != id) = s.lenses.eraseIdx k :=
      filter_eq_eraseIdx_of_findIndexJs id s.lenses k hnd hk
    have hlen : (s.lenses.eraseIdx k).length = s.lenses.length - 1 := by
      rw [List.length_eraseIdx, if_pos hklen]
    refine ⟨?_, ?_, ?_⟩
    · rw [deleteLens_def]
      exact hfe
    · intro hlast
      rw [deleteLens_def]
      show (if _ < _ then _ else _) = _
      rw [hk, hfe, hlen, if_pos (by omega)]
      exact filterNeIdxFrom_eraseIdx (k : ℤ) s.distances 0 k (by omega)
    · intro hlast
      rw [deleteLens_def]
      show (if _ < _ then _ else _) = _
      rw [hk, hfe, hlen, if_neg (by omega)]
      by_cases hd : 0 < s.distances.length
      · rw [if_pos hd]
      · rw [if_neg hd]
        have : s.distances = [] := List.length_eq_zero.mp (by omega)
        rw [this, List.dropLast_nil]

theorem deleteLens_spec_witness :
    (deleteLens sFull 1).lenses = sFull.lenses.eraseIdx 0 ∧
    (deleteLens sFull 1).distances = sFull.distances.eraseIdx 0 := by
  have h := (deleteLens_spec sFull (by decide) 1).2.2 0 (by decide)
  exact ⟨h.1, h.2.1 (by decide)⟩

theorem foldl_traceStep_eq_rayTraceAux (distances : List ℚ) (centerY : ℚ) :
    ∀ (lenses : List Lens) (st : TraceState),
      lenses.foldl (traceStep distances centerY) st =
        { x := (rayTraceAux distances centerY lenses st.k st.x st.y
            st.slope).2.1,
          y := (rayTraceAux distances centerY lenses st.k st.x st.y
            st.slope).2.2.1,
          slope := (rayTraceAux distances centerY lenses st.k st.x st.y
            st.slope).2.2.2,
          pts := st.pts ++ (rayTraceAux distances centerY lenses st.k st.x
            st.y st.slope).1,
          k := st.k + lenses.length }
  | [], st => by simp [rayTraceAux]
  | lens :: rest, st => by
    rw [List.foldl_cons, foldl_traceStep_eq_rayTraceAux distances centerY rest]
    simp only [rayTraceAux, traceStep]
    rw [TraceState.mk.injEq]
    refine ⟨rfl, rfl, rfl, by simp, by simp; omega⟩

theorem rayTraceAux_points_length (distances : List ℚ) (centerY : ℚ) :
    ∀ (lenses : List Lens) (k : ℕ) (x y slope : ℚ),
      (rayTraceAux distances centerY lenses k x y slope).1.length =
        lenses.length
  | [], _, _, _, _ => rfl
  | lens :: rest, k, x, y, slope => by
    unfold rayTraceAux
    dsimp only
    simp [rayTraceAux_points_length distances centerY rest (k + 1)]

/-- C8: `simpleRayTrace` coincides with the fold the spec describes
(start at `x = 0`, `y = startHeight`, slope `0`; bend by
`-((y - centerY) / 200) * power * 0.1` at each lens; extend to
`max(width, last lens + 100)`), its polyline is finite with exactly
`length + 2` points, and on the empty sequence it is the straight
horizontal line across the canvas. -/
theorem simpleRayTrace_spec (distances : List ℚ)
    (width centerY startHeight : ℚ) (lenses : List Lens) :
    simpleRayTrace distances width centerY startHeight lenses =
      traceSpec distances width centerY startHeight lenses ∧
    (simpleRayTrace distances width centerY startHeight lenses).length =
      lenses.length + 2 ∧
    simpleRayTrace distances width centerY startHeight [] =
      [(0, startHeight), (max width 100, startHeight)] := by
  refine ⟨?_, ?_, ?_⟩
  · unfold simpleRayTrace traceSpec
    rw [foldl_traceStep_eq_rayTraceAux distances centerY lenses]
    simp
  · unfold simpleRayTrace
    simp [rayTraceAux_points_length]
  · unfold simpleRayTrace
    simp [rayTraceAux]

end MrOptics
